import Mathlib

/-!
Verification of the ConfigSpace hyperparameter core
(`src/ConfigSpace/hyperparameters.py`, `src/ConfigSpace/configuration.py`)
against its natural-language specification.

Conventions of the shallow embedding:

* Python floats are modelled as rationals (`ℚ`); log-scale arithmetic,
  which needs `exp`/`log`, is modelled separately over `ℝ`.
* A `NaN` vector entry and the absent value `None` are both modelled as
  `Option.none`: `some x` is a finite vector entry / present value.
* `np.round(x, 0)` rounds half to even; `roundHalfEven` models it exactly.
* `np.log` of a nonpositive argument is NaN (or `-inf`); `npLog` models it
  as `none`, and a NaN propagates through the real-side transforms as
  `none`.
* A `raise` in a transform is modelled by `Except.error`; random draws are
  modelled as an explicit stream `ℕ → _` consumed left to right, and the
  unbounded `while` loops of neighbor generation by a fuel parameter
  (`none` = the loop has not terminated within the given fuel).
-/

namespace ConfigSpace

/-- Model of `np.round(x, 0)` (banker's rounding, half to even),
returning the rounded value as an integer (the code's `int(...)` /
`.astype(int)` applied to the already-integral result is exact). -/
def roundHalfEven {α : Type} [LinearOrderedField α] [FloorRing α] (x : α) : ℤ :=
  let n := ⌊x⌋
  let f := x - n
  if f < 1 / 2 then n
  else if 1 / 2 < f then n + 1
  else if n % 2 = 0 then n else n + 1

theorem roundHalfEven_intCast {α : Type} [LinearOrderedField α] [FloorRing α]
    (n : ℤ) : roundHalfEven (n : α) = n := by
  simp [roundHalfEven]

theorem abs_roundHalfEven_sub {α : Type} [LinearOrderedField α] [FloorRing α]
    (x : α) : |(roundHalfEven x : α) - x| ≤ 1 / 2 := by
  have h0 : (⌊x⌋ : α) ≤ x := Int.floor_le x
  have h1 : x < ⌊x⌋ + 1 := Int.lt_floor_add_one x
  unfold roundHalfEven
  simp only []
  split
  · rename_i h
    rw [abs_le]
    constructor <;> linarith
  · split
    · rename_i h h'
      rw [abs_le]
      constructor <;> push_cast <;> linarith
    · split <;>
      · rename_i h h' _
        have hf : x - (⌊x⌋ : α) = 1 / 2 := le_antisymm (not_lt.mp h') (not_lt.mp h)
        rw [abs_le]
        constructor <;> push_cast <;> linarith

theorem roundHalfEven_sub_le {α : Type} [LinearOrderedField α] [FloorRing α]
    (x : α) : |x - (roundHalfEven x : α)| ≤ 1 / 2 := by
  rw [abs_sub_comm]; exact abs_roundHalfEven_sub x

/-- `is_legal_uniformfloat(value, upper, lower)`: the module-level legality
test for uniform float hyperparameters.  The Python `isinstance` numeric
check is modelled by the argument type `ℚ`; the remaining test is
`upper >= value >= lower - 0.0000000001`. -/
def is_legal_uniformfloat (value upper lower : ℚ) : Bool :=
  upper ≥ value && value ≥ lower - 1 / 10000000000

/-- `is_legal_uniforminteger(value, upper, lower)`: the module-level legality
test for uniform integer hyperparameters.  The `isinstance` integer check is
modelled by the argument type `ℤ`; the bounds test is the same
`upper >= value >= lower - 0.0000000001`. -/
def is_legal_uniforminteger (value : ℤ) (upper lower : ℚ) : Bool :=
  upper ≥ (value : ℚ) && (value : ℚ) ≥ lower - 1 / 10000000000

/-- `UniformFloatHyperparameter` with `log=False`: bounds and optional
quantization step.  The log-scale arm of the class (which needs `exp`/`log`)
is modelled separately over `ℝ` by `UniformFloatReal` below. -/
structure UniformFloatHyperparameter where
  lower : ℚ
  upper : ℚ
  q : Option ℚ

namespace UniformFloatHyperparameter

/-- The widened internal bound `self._lower`: `lower - (q/2 - 0.0001)` when
quantization is set, else `lower` (the `log=False` branch of `__init__`). -/
def lowerT (hp : UniformFloatHyperparameter) : ℚ :=
  match hp.q with
  | none => hp.lower
  | some qv => hp.lower - (qv / 2 - 1 / 10000)

/-- The widened internal bound `self._upper`. -/
def upperT (hp : UniformFloatHyperparameter) : ℚ :=
  match hp.q with
  | none => hp.upper
  | some qv => hp.upper + (qv / 2 - 1 / 10000)

/-- `UniformFloatHyperparameter._transform`: `NaN ↦ None`; otherwise scale
the unit-interval draw into `[_lower, _upper]` and snap to the nearest
multiple of `q` when quantization is set. -/
def _transform (hp : UniformFloatHyperparameter) : Option ℚ → Option ℚ
  | none => none
  | some x =>
    let y := x * (hp.upperT - hp.lowerT) + hp.lowerT
    some (match hp.q with
      | none => y
      | some qv => (roundHalfEven (y / qv) : ℚ) * qv)

/-- `UniformFloatHyperparameter._inverse_transform`: `None ↦ NaN`; otherwise
rescale the value linearly into `[0, 1]` using `_lower`/`_upper`. -/
def _inverse_transform (hp : UniformFloatHyperparameter) : Option ℚ → Option ℚ
  | none => none
  | some v => some ((v - hp.lowerT) / (hp.upperT - hp.lowerT))

end UniformFloatHyperparameter

/-- `NormalFloatHyperparameter` with `log=False`: mean, standard deviation
and optional quantization step. -/
structure NormalFloatHyperparameter where
  mu : ℚ
  sigma : ℚ
  q : Option ℚ

namespace NormalFloatHyperparameter

/-- `NormalFloatHyperparameter._transform`: `NaN ↦ None`; otherwise snap to
the nearest multiple of `q` when quantization is set (no rescaling). -/
def _transform (hp : NormalFloatHyperparameter) : Option ℚ → Option ℚ
  | none => none
  | some x =>
    some (match hp.q with
      | none => x
      | some qv => (roundHalfEven (x / qv) : ℚ) * qv)

/-- `NormalFloatHyperparameter._inverse_transform`: `None ↦ NaN`; otherwise
the identity (the `log=False` branch). -/
def _inverse_transform (_hp : NormalFloatHyperparameter) : Option ℚ → Option ℚ
  | none => none
  | some v => some v

end NormalFloatHyperparameter

/-- `UniformIntegerHyperparameter` with `log=False`: integer bounds and
optional integer quantization step (`q ≥ 1`, else dropped at
construction). -/
structure UniformIntegerHyperparameter where
  lower : ℤ
  upper : ℤ
  q : Option ℤ

namespace UniformIntegerHyperparameter

/-- The internally held float-uniform instance `self.ufhp`, with bounds
widened by `±0.49999` and the same quantization step. -/
def ufhp (hp : UniformIntegerHyperparameter) : UniformFloatHyperparameter :=
  { lower := (hp.lower : ℚ) - 49999 / 100000
    upper := (hp.upper : ℚ) + 49999 / 100000
    q := hp.q.map (fun qv => (qv : ℚ)) }

/-- `UniformIntegerHyperparameter._transform`: `NaN ↦ None`; otherwise
delegate to `ufhp._transform`, snap to a multiple of `q` again, and round
the result to an integer. -/
def _transform (hp : UniformIntegerHyperparameter) : Option ℚ → Option ℤ
  | none => none
  | some x =>
    match hp.ufhp._transform (some x) with
    | none => none
    | some v =>
      let v' := match hp.q with
        | none => v
        | some qv => (roundHalfEven (v / (qv : ℚ)) : ℚ) * (qv : ℚ)
      some (roundHalfEven v')

/-- `UniformIntegerHyperparameter._inverse_transform`: delegate to
`ufhp._inverse_transform` on the (integer) value. -/
def _inverse_transform (hp : UniformIntegerHyperparameter) :
    Option ℤ → Option ℚ
  | none => none
  | some v => hp.ufhp._inverse_transform (some (v : ℚ))

/-- `UniformIntegerHyperparameter._sample` as a function of the raw draw
`x` of `self.ufhp._sample`: the draw is transformed to an integer and then
transformed back (`value = self._transform(value); value =
self._inverse_transform(value)`). -/
def sampleFromDraw (hp : UniformIntegerHyperparameter) (x : ℚ) : Option ℚ :=
  hp._inverse_transform (hp._transform (some x))

end UniformIntegerHyperparameter

/-- `NormalIntegerHyperparameter` with `log=False`: integer mean, rational
standard deviation, optional integer quantization step. -/
structure NormalIntegerHyperparameter where
  mu : ℤ
  sigma : ℚ
  q : Option ℤ

namespace NormalIntegerHyperparameter

/-- The internally held float-normal instance `self.nfhp` at the same
`mu`, `sigma` and `q`. -/
def nfhp (hp : NormalIntegerHyperparameter) : NormalFloatHyperparameter :=
  { mu := (hp.mu : ℚ), sigma := hp.sigma, q := hp.q.map (fun qv => (qv : ℚ)) }

/-- `NormalIntegerHyperparameter._transform`: `NaN ↦ None`; otherwise
delegate to `nfhp._transform` and round the result to an integer. -/
def _transform (hp : NormalIntegerHyperparameter) : Option ℚ → Option ℤ
  | none => none
  | some x =>
    match hp.nfhp._transform (some x) with
    | none => none
    | some v => some (roundHalfEven v)

/-- `NormalIntegerHyperparameter._inverse_transform`: delegate to
`nfhp._inverse_transform`. -/
def _inverse_transform (hp : NormalIntegerHyperparameter) :
    Option ℤ → Option ℚ
  | none => none
  | some v => hp.nfhp._inverse_transform (some (v : ℚ))

end NormalIntegerHyperparameter

/-- `Constant`: a single value of some type `α` (int/float/str in the
source); `default = value`. -/
structure Constant (α : Type) where
  value : α

namespace Constant

variable {α : Type} [DecidableEq α]

/-- `Constant.is_legal`: legal iff equal to the stored value. -/
def is_legal (c : Constant α) (v : α) : Bool := v = c.value

/-- `Constant._transform`: a non-finite (`NaN`) vector gives `None`, any
finite vector gives the stored value. -/
def _transform (c : Constant α) : Option ℚ → Option α
  | none => none
  | some _ => some c.value

/-- `Constant._inverse_transform`: `NaN` (here `none`) unless the value
equals the stored value, in which case the vector is `0`.  An absent value
compares unequal to the stored value, so it also maps to `NaN`. -/
def _inverse_transform (c : Constant α) (v : Option α) : Option ℚ :=
  if v = some c.value then some 0 else none

end Constant

/-- `CategoricalHyperparameter`: an ordered list of choices; the vector
domain is the 0-based choice index. -/
structure CategoricalHyperparameter (α : Type) where
  choices : List α

namespace CategoricalHyperparameter

variable {α : Type} [DecidableEq α]

/-- `CategoricalHyperparameter._transform`: `NaN ↦ None`; a non-integral
or out-of-range vector is a contract violation (`raise`, modelled by
`Except.error`); an in-range integral vector indexes `choices`.  (Python
would wrap an index in `[-k, 0)`; a negative vector is modelled as the
out-of-range error, a path no claim exercises.) -/
def _transform (c : CategoricalHyperparameter α) :
    Option ℚ → Except String (Option α)
  | none => Except.ok none
  | some x =>
    if x.den = 1 ∧ 0 ≤ x then
      match c.choices.get? x.num.toNat with
      | some v => Except.ok (some v)
      | none => Except.error "index out of range"
    else
      Except.error "Can only index the choices with an integer"

/-- `CategoricalHyperparameter._inverse_transform`: `None ↦ NaN`; otherwise
`choices.index(value)` (first occurrence), a `ValueError` (`Except.error`)
when the value is not a choice. -/
def _inverse_transform (c : CategoricalHyperparameter α) :
    Option α → Except String (Option ℚ)
  | none => Except.ok none
  | some v =>
    if v ∈ c.choices then Except.ok (some (c.choices.indexOf v : ℚ))
    else Except.error "value not in choices"

end CategoricalHyperparameter

/-- `OrdinalHyperparameter`: an ordered sequence; the vector domain of
`_transform`/`_inverse_transform` is the 0-based sequence index, while
`value_dict` orders the elements 1-based. -/
structure OrdinalHyperparameter (α : Type) where
  sequence : List α

namespace OrdinalHyperparameter

variable {α : Type} [DecidableEq α]

/-- `OrdinalHyperparameter.get_order`: the 1-based position of `value` in
`value_dict`.  The dict is built by iterating the sequence with a counter
starting at 1, later duplicates overwriting earlier ones, so an element's
order is the 1-based position of its *last* occurrence; a missing value is
a `KeyError` (modelled as 0, a path no claim exercises). -/
def get_order (o : OrdinalHyperparameter α) (value : α) : ℤ :=
  if value ∈ o.sequence then
    (o.sequence.length : ℤ) - (o.sequence.reverse.indexOf value : ℤ)
  else 0

/-- `OrdinalHyperparameter._transform`: `vector != vector` detects `NaN`
(`none` here); a non-integral or out-of-range vector is a contract
violation; otherwise index the sequence 0-based. -/
def _transform (o : OrdinalHyperparameter α) :
    Option ℚ → Except String (Option α)
  | none => Except.ok none
  | some x =>
    if x.den = 1 ∧ 0 ≤ x then
      match o.sequence.get? x.num.toNat with
      | some v => Except.ok (some v)
      | none => Except.error "index out of range"
    else
      Except.error "Can only index the choices with an integer"

/-- `OrdinalHyperparameter._inverse_transform`: `None ↦ NaN`; otherwise
`sequence.index(value)` (first occurrence, 0-based). -/
def _inverse_transform (o : OrdinalHyperparameter α) :
    Option α → Except String (Option ℚ)
  | none => Except.ok none
  | some v =>
    if v ∈ o.sequence then Except.ok (some (o.sequence.indexOf v : ℚ))
    else Except.error "value not in sequence"

/-- `OrdinalHyperparameter.get_num_neighbors`: `1` for the first or last
element of the sequence, `2` otherwise. -/
def get_num_neighbors [Inhabited α] (o : OrdinalHyperparameter α)
    (value : α) : ℕ :=
  if value = o.sequence.getD 0 default ∨ value = (o.sequence.getLast?).getD default
  then 1 else 2

/-- `OrdinalHyperparameter.get_neighbors` with `transform=False`: when the
requested `number` is smaller than the sequence length, the 1-based order
positions `index - 1` (when `≥ seq[0] = 1`) and `index + 1` (when
`≤ len(sequence)`); otherwise the empty list. -/
def get_neighbors (o : OrdinalHyperparameter α) (value : α) (number : ℕ) :
    List ℤ :=
  if (number : ℤ) < (o.sequence.length : ℤ) then
    let index := o.get_order value
    (if index - 1 < index ∧ 1 ≤ index - 1 then [index - 1] else []) ++
      (if index < index + 1 ∧ index + 1 ≤ (o.sequence.length : ℤ)
        then [index + 1] else [])
  else []

end OrdinalHyperparameter

/-- C2, counterexample.  The claim says every numeric value with
`lower - 1e-8 ≤ value ≤ upper` is legal; the code's slack below `lower` is
`1e-10`, so `-1e-9` (which is within the claimed `1e-8` slack of
`lower = 0`) is rejected. -/
theorem is_legal_slack_claim_false :
    (0 - 1 / 100000000 ≤ (-1 / 1000000000 : ℚ) ∧ (-1 / 1000000000 : ℚ) ≤ 1)
      ∧ is_legal_uniformfloat (-1 / 1000000000) 1 0 = false := by
  constructor
  · constructor <;> norm_num
  · simp only [is_legal_uniformfloat, Bool.and_eq_false_iff, decide_eq_false_iff_not,
      not_le, ge_iff_le]
    right
    norm_num

/-- C2, amended.  `is_legal` accepts exactly the numeric values with
`lower - 1e-10 ≤ value ≤ upper` (slack `1e-10`, not `1e-8`); for the integer
variant the value must moreover be an integer.  The claim's two concrete
examples hold as stated: for `UniformFloat(lower=0, upper=1)`,
`is_legal(-1e-10)` is true and `is_legal(-1e-7)` is false. -/
theorem is_legal_uniform_slack :
    (∀ value upper lower : ℚ,
      is_legal_uniformfloat value upper lower = true ↔
        lower - 1 / 10000000000 ≤ value ∧ value ≤ upper)
    ∧ (∀ (value : ℤ) (upper lower : ℚ),
      is_legal_uniforminteger value upper lower = true ↔
        lower - 1 / 10000000000 ≤ (value : ℚ) ∧ (value : ℚ) ≤ upper)
    ∧ is_legal_uniformfloat (-1 / 10000000000) 1 0 = true
    ∧ is_legal_uniformfloat (-1 / 10000000) 1 0 = false := by
  have e1 : is_legal_uniformfloat (-1 / 10000000000) 1 0 = true := by
    simp only [is_legal_uniformfloat, Bool.and_eq_true, decide_eq_true_eq, ge_iff_le]
    norm_num
  have e2 : is_legal_uniformfloat (-1 / 10000000) 1 0 = false := by
    simp only [is_legal_uniformfloat, Bool.and_eq_false_iff, decide_eq_false_iff_not,
      not_le, ge_iff_le]
    right
    norm_num
  refine ⟨?_, ?_, e1, e2⟩
  · intro value upper lower
    simp [is_legal_uniformfloat, and_comm]
  · intro value upper lower
    simp [is_legal_uniforminteger, and_comm]

/-- The linear unit-interval rescaling and its inverse cancel exactly (in
exact arithmetic) whenever the two bounds differ. -/
theorem linear_roundtrip {α : Type} [Field α] (l u v : α) (h : u ≠ l) :
    (v - l) / (u - l) * (u - l) + l = v := by
  have : u - l ≠ 0 := sub_ne_zero.mpr h
  field_simp

/-- Snapping to the nearest multiple of a positive step `q` moves a value
by at most `q / 2`. -/
theorem quantize_dist {α : Type} [LinearOrderedField α] [FloorRing α]
    (v q : α) (hq : 0 < q) : |(roundHalfEven (v / q) : α) * q - v| ≤ q / 2 := by
  have h := abs_roundHalfEven_sub (v / q)
  have h2 : |(roundHalfEven (v / q) : α) - v / q| * q ≤ (1 / 2) * q :=
    mul_le_mul_of_nonneg_right h (le_of_lt hq)
  have key : (roundHalfEven (v / q) : α) * q - v
      = ((roundHalfEven (v / q) : α) - v / q) * q := by
    field_simp
  rw [key, abs_mul, abs_of_pos hq]
  linarith

/-- Snapping an exact multiple of `q` to the `q`-lattice is the identity. -/
theorem quantize_fix {α : Type} [LinearOrderedField α] [FloorRing α]
    (n : ℤ) (q : α) (hq : q ≠ 0) :
    roundHalfEven ((n : α) * q / q) = n := by
  rw [mul_div_assoc, div_self hq, mul_one, roundHalfEven_intCast]

/-- `np.log` with its non-real results modelled as `none`: `np.log` of a
negative number is NaN (of zero, `-inf`, which the downstream bound
arithmetic also turns into NaN), so a nonpositive argument gives `none`.
`none` stands for NaN throughout the real-side transforms, matching the
file's NaN-as-`none` convention. -/
noncomputable def npLog (x : ℝ) : Option ℝ :=
  if 0 < x then some (Real.log x) else none

/-- `UniformFloatHyperparameter` over `ℝ`, including the `log` flag: the
log-scale arm of the class needs `exp`/`log`, so it is modelled in real
arithmetic. -/
structure UniformFloatReal where
  lower : ℝ
  upper : ℝ
  q : Option ℝ
  log : Bool

namespace UniformFloatReal

/-- The bound widened by `q/2 - 0.0001` (before any log). -/
noncomputable def lowerRaw (hp : UniformFloatReal) : ℝ :=
  match hp.q with
  | none => hp.lower
  | some qv => hp.lower - (qv / 2 - 1 / 10000)

/-- The bound widened by `q/2 - 0.0001` (before any log). -/
noncomputable def upperRaw (hp : UniformFloatReal) : ℝ :=
  match hp.q with
  | none => hp.upper
  | some qv => hp.upper + (qv / 2 - 1 / 10000)

/-- `self._lower`: the widened bound, logged when `log` is set (`none` =
the NaN bound a nonpositive widened value produces). -/
noncomputable def lowerT (hp : UniformFloatReal) : Option ℝ :=
  if hp.log then npLog hp.lowerRaw else some hp.lowerRaw

/-- `self._upper`: the widened bound, logged when `log` is set. -/
noncomputable def upperT (hp : UniformFloatReal) : Option ℝ :=
  if hp.log then npLog hp.upperRaw else some hp.upperRaw

/-- `UniformFloatHyperparameter._transform` over `ℝ`: rescale into
`[_lower, _upper]`, exponentiate when `log`, quantize when `q` is set.
With a NaN internal bound the arithmetic yields NaN, modelled as
`none`. -/
noncomputable def _transform (hp : UniformFloatReal) : Option ℝ → Option ℝ
  | none => none
  | some x =>
    match hp.lowerT, hp.upperT with
    | some l, some u =>
      let y := x * (u - l) + l
      let y2 := if hp.log then Real.exp y else y
      some (match hp.q with
        | none => y2
        | some qv => (roundHalfEven (y2 / qv) : ℝ) * qv)
    | _, _ => none

/-- `UniformFloatHyperparameter._inverse_transform` over `ℝ`: log the
value when `log`, then rescale into `[0, 1]`.  A NaN operand (nonpositive
value under `log`, or a NaN internal bound) makes the result NaN
(`none`). -/
noncomputable def _inverse_transform (hp : UniformFloatReal) :
    Option ℝ → Option ℝ
  | none => none
  | some v =>
    match (if hp.log then npLog v else some v), hp.lowerT, hp.upperT with
    | some v2, some l, some u => some ((v2 - l) / (u - l))
    | _, _, _ => none

end UniformFloatReal

/-- `NormalFloatHyperparameter` over `ℝ`, including the `log` flag. -/
structure NormalFloatReal where
  mu : ℝ
  sigma : ℝ
  q : Option ℝ
  log : Bool

namespace NormalFloatReal

/-- `NormalFloatHyperparameter._transform` over `ℝ`: exponentiate when
`log`, quantize when `q` is set. -/
noncomputable def _transform (hp : NormalFloatReal) : Option ℝ → Option ℝ
  | none => none
  | some x =>
    let y := if hp.log then Real.exp x else x
    some (match hp.q with
      | none => y
      | some qv => (roundHalfEven (y / qv) : ℝ) * qv)

/-- `NormalFloatHyperparameter._inverse_transform` over `ℝ`: log the
value when `log` (NaN, i.e. `none`, for a nonpositive value), else the
identity. -/
noncomputable def _inverse_transform (hp : NormalFloatReal) :
    Option ℝ → Option ℝ
  | none => none
  | some v => if hp.log then npLog v else some v

end NormalFloatReal

/-- `UniformIntegerHyperparameter` over `ℝ`, including the `log` flag. -/
structure UniformIntegerReal where
  lower : ℤ
  upper : ℤ
  q : Option ℤ
  log : Bool

namespace UniformIntegerReal

/-- The internally held float-uniform instance with `±0.49999`-widened
bounds. -/
noncomputable def ufhp (hp : UniformIntegerReal) : UniformFloatReal :=
  { lower := (hp.lower : ℝ) - 49999 / 100000
    upper := (hp.upper : ℝ) + 49999 / 100000
    q := hp.q.map (fun qv => (qv : ℝ))
    log := hp.log }

/-- `UniformIntegerHyperparameter._transform` over `ℝ`. -/
noncomputable def _transform (hp : UniformIntegerReal) : Option ℝ → Option ℤ
  | none => none
  | some x =>
    match hp.ufhp._transform (some x) with
    | none => none
    | some v =>
      let v' := match hp.q with
        | none => v
        | some qv => (roundHalfEven (v / (qv : ℝ)) : ℝ) * (qv : ℝ)
      some (roundHalfEven v')

/-- `UniformIntegerHyperparameter._inverse_transform` over `ℝ`. -/
noncomputable def _inverse_transform (hp : UniformIntegerReal) :
    Option ℤ → Option ℝ
  | none => none
  | some v => hp.ufhp._inverse_transform (some (v : ℝ))

end UniformIntegerReal

/-- `NormalIntegerHyperparameter` over `ℝ`, including the `log` flag. -/
structure NormalIntegerReal where
  mu : ℤ
  sigma : ℝ
  q : Option ℤ
  log : Bool

namespace NormalIntegerReal

/-- The internally held float-normal instance. -/
noncomputable def nfhp (hp : NormalIntegerReal) : NormalFloatReal :=
  { mu := (hp.mu : ℝ), sigma := hp.sigma
    q := hp.q.map (fun qv => (qv : ℝ)), log := hp.log }

/-- `NormalIntegerHyperparameter._transform` over `ℝ`. -/
noncomputable def _transform (hp : NormalIntegerReal) : Option ℝ → Option ℤ
  | none => none
  | some x =>
    match hp.nfhp._transform (some x) with
    | none => none
    | some v => some (roundHalfEven v)

/-- `NormalIntegerHyperparameter._inverse_transform` over `ℝ`. -/
noncomputable def _inverse_transform (hp : NormalIntegerReal) :
    Option ℤ → Option ℝ
  | none => none
  | some v => hp.nfhp._inverse_transform (some (v : ℝ))

end NormalIntegerReal

section RoundTripLemmas

open UniformFloatHyperparameter NormalFloatHyperparameter
open UniformIntegerHyperparameter NormalIntegerHyperparameter

/-- Unquantized uniform float: the transform pair cancels exactly. -/
theorem uf_roundtrip_noq (hp : UniformFloatHyperparameter) (hq : hp.q = none)
    (hlt : hp.lower < hp.upper) (v : ℚ) :
    hp._transform (hp._inverse_transform (some v)) = some v := by
  have hne : hp.upperT ≠ hp.lowerT := by
    simp only [UniformFloatHyperparameter.lowerT, UniformFloatHyperparameter.upperT, hq]
    exact ne_of_gt hlt
  simp only [UniformFloatHyperparameter._inverse_transform,
    UniformFloatHyperparameter._transform, hq]
  rw [linear_roundtrip _ _ _ hne]

/-- Quantized uniform float: the transform pair lands within `q/2 ≤ q` of
the value. -/
theorem uf_roundtrip_q (hp : UniformFloatHyperparameter) (qv : ℚ)
    (hq : hp.q = some qv) (hqpos : 0 < qv) (hlt : hp.lowerT < hp.upperT)
    (v : ℚ) :
    ∃ w, hp._transform (hp._inverse_transform (some v)) = some w
      ∧ |w - v| ≤ qv := by
  have hne : hp.upperT ≠ hp.lowerT := ne_of_gt hlt
  simp only [UniformFloatHyperparameter._inverse_transform,
    UniformFloatHyperparameter._transform, hq]
  rw [linear_roundtrip _ _ _ hne]
  refine ⟨_, rfl, ?_⟩
  have := quantize_dist v qv hqpos
  linarith

/-- Unquantized normal float: the transform pair is the identity. -/
theorem nf_roundtrip_noq (hp : NormalFloatHyperparameter) (hq : hp.q = none)
    (v : ℚ) :
    hp._transform (hp._inverse_transform (some v)) = some v := by
  simp only [NormalFloatHyperparameter._inverse_transform,
    NormalFloatHyperparameter._transform, hq]

/-- Quantized normal float: the transform pair lands within `q/2 ≤ q`. -/
theorem nf_roundtrip_q (hp : NormalFloatHyperparameter) (qv : ℚ)
    (hq : hp.q = some qv) (hqpos : 0 < qv) (v : ℚ) :
    ∃ w, hp._transform (hp._inverse_transform (some v)) = some w
      ∧ |w - v| ≤ qv := by
  simp only [NormalFloatHyperparameter._inverse_transform,
    NormalFloatHyperparameter._transform, hq]
  refine ⟨_, rfl, ?_⟩
  have := quantize_dist v qv hqpos
  linarith

/-- Unquantized uniform integer: the transform pair is exact on integer
values (the rescale cancels and rounding an integer is the identity). -/
theorem ui_roundtrip_noq (hp : UniformIntegerHyperparameter)
    (hq : hp.q = none) (hlt : hp.lower < hp.upper) (v : ℤ) :
    hp._transform (hp._inverse_transform (some v)) = some v := by
  have hqq : hp.ufhp.q = none := by
    simp [UniformIntegerHyperparameter.ufhp, hq]
  have hne : hp.ufhp.upperT ≠ hp.ufhp.lowerT := by
    have hc : (hp.lower : ℚ) < (hp.upper : ℚ) := by exact_mod_cast hlt
    simp only [UniformFloatHyperparameter.lowerT,
      UniformFloatHyperparameter.upperT, hqq]
    simp only [UniformIntegerHyperparameter.ufhp]
    intro h
    linarith
  simp only [UniformIntegerHyperparameter._inverse_transform,
    UniformIntegerHyperparameter._transform,
    UniformFloatHyperparameter._inverse_transform,
    UniformFloatHyperparameter._transform, hqq, hq]
  rw [linear_roundtrip _ _ _ hne]
  simp [roundHalfEven_intCast]

/-- Quantized uniform integer: the transform pair lands within the
quantization step `q` of the value. -/
theorem ui_roundtrip_q (hp : UniformIntegerHyperparameter) (qi : ℤ)
    (hq : hp.q = some qi) (hq1 : 1 ≤ qi) (hlt : hp.lower < hp.upper)
    (v : ℤ) :
    ∃ w : ℤ, hp._transform (hp._inverse_transform (some v)) = some w
      ∧ |(w : ℚ) - (v : ℚ)| ≤ (qi : ℚ) := by
  have hqq : hp.ufhp.q = some ((qi : ℤ) : ℚ) := by
    simp [UniformIntegerHyperparameter.ufhp, hq]
  have hqpos : (0 : ℚ) < ((qi : ℤ) : ℚ) := by
    have : (0 : ℤ) < qi := lt_of_lt_of_le one_pos hq1
    exact_mod_cast this
  have hne : hp.ufhp.upperT ≠ hp.ufhp.lowerT := by
    have hc : (hp.lower : ℚ) < (hp.upper : ℚ) := by exact_mod_cast hlt
    simp only [UniformFloatHyperparameter.lowerT,
      UniformFloatHyperparameter.upperT, hqq]
    simp only [UniformIntegerHyperparameter.ufhp]
    intro h
    linarith
  simp only [UniformIntegerHyperparameter._inverse_transform,
    UniformIntegerHyperparameter._transform,
    UniformFloatHyperparameter._inverse_transform,
    UniformFloatHyperparameter._transform, hqq, hq]
  rw [linear_roundtrip _ _ _ hne]
  rw [quantize_fix _ _ (ne_of_gt hqpos)]
  have hcast : ((roundHalfEven ((v : ℚ) / (qi : ℚ)) : ℤ) : ℚ) * (qi : ℚ)
      = ((roundHalfEven ((v : ℚ) / (qi : ℚ)) * qi : ℤ) : ℚ) := by
    push_cast
    ring
  rw [hcast, roundHalfEven_intCast]
  refine ⟨_, rfl, ?_⟩
  rw [← hcast]
  have := quantize_dist (v : ℚ) ((qi : ℤ) : ℚ) hqpos
  linarith

/-- Unquantized normal integer: the transform pair is exact on integer
values. -/
theorem ni_roundtrip_noq (hp : NormalIntegerHyperparameter)
    (hq : hp.q = none) (v : ℤ) :
    hp._transform (hp._inverse_transform (some v)) = some v := by
  have hqq : hp.nfhp.q = none := by
    simp [NormalIntegerHyperparameter.nfhp, hq]
  simp only [NormalIntegerHyperparameter._inverse_transform,
    NormalIntegerHyperparameter._transform,
    NormalFloatHyperparameter._inverse_transform,
    NormalFloatHyperparameter._transform, hqq]
  simp [roundHalfEven_intCast]

/-- Quantized normal integer: the transform pair lands within `q`. -/
theorem ni_roundtrip_q (hp : NormalIntegerHyperparameter) (qi : ℤ)
    (hq : hp.q = some qi) (hq1 : 1 ≤ qi) (v : ℤ) :
    ∃ w : ℤ, hp._transform (hp._inverse_transform (some v)) = some w
      ∧ |(w : ℚ) - (v : ℚ)| ≤ (qi : ℚ) := by
  have hqq : hp.nfhp.q = some ((qi : ℤ) : ℚ) := by
    simp [NormalIntegerHyperparameter.nfhp, hq]
  have hqpos : (0 : ℚ) < ((qi : ℤ) : ℚ) := by
    have : (0 : ℤ) < qi := lt_of_lt_of_le one_pos hq1
    exact_mod_cast this
  simp only [NormalIntegerHyperparameter._inverse_transform,
    NormalIntegerHyperparameter._transform,
    NormalFloatHyperparameter._inverse_transform,
    NormalFloatHyperparameter._transform, hqq]
  have hcast : ((roundHalfEven ((v : ℚ) / (qi : ℚ)) : ℤ) : ℚ) * (qi : ℚ)
      = ((roundHalfEven ((v : ℚ) / (qi : ℚ)) * qi : ℤ) : ℚ) := by
    push_cast
    ring
  rw [hcast, roundHalfEven_intCast]
  refine ⟨_, rfl, ?_⟩
  rw [← hcast]
  have := quantize_dist (v : ℚ) ((qi : ℤ) : ℚ) hqpos
  linarith

/-- Constant: a legal value (the stored one) round-trips through vector `0`
exactly. -/
theorem const_roundtrip {α : Type} [DecidableEq α] (c : Constant α) (v : α)
    (h : c.is_legal v = true) :
    c._transform (c._inverse_transform (some v)) = some v := by
  have hv : v = c.value := by
    simpa [Constant.is_legal] using h
  subst hv
  simp [Constant._inverse_transform, Constant._transform]

/-- Categorical: a value among the choices encodes to its first index and
decodes back to itself exactly. -/
theorem cat_roundtrip {α : Type} [DecidableEq α]
    (c : CategoricalHyperparameter α) (v : α) (h : v ∈ c.choices) :
    c._inverse_transform (some v)
        = Except.ok (some ((c.choices.indexOf v : ℕ) : ℚ))
      ∧ c._transform (some ((c.choices.indexOf v : ℕ) : ℚ))
        = Except.ok (some v) := by
  constructor
  · simp [CategoricalHyperparameter._inverse_transform, h]
  · have hlt : c.choices.indexOf v < c.choices.length :=
      List.indexOf_lt_length.mpr h
    have hden : ((c.choices.indexOf v : ℕ) : ℚ).den = 1 := Rat.den_natCast _
    have hnum : ((c.choices.indexOf v : ℕ) : ℚ).num = (c.choices.indexOf v : ℤ) :=
      Rat.num_natCast _
    simp only [CategoricalHyperparameter._transform, hden, hnum,
      Nat.cast_nonneg, and_true, if_pos, Int.toNat_natCast, true_and]
    rw [List.get?_eq_get hlt]
    simp [List.indexOf_get]

/-- Ordinal: a value in the sequence encodes to its first index and decodes
back to itself exactly. -/
theorem ord_roundtrip {α : Type} [DecidableEq α]
    (o : OrdinalHyperparameter α) (v : α) (h : v ∈ o.sequence) :
    o._inverse_transform (some v)
        = Except.ok (some ((o.sequence.indexOf v : ℕ) : ℚ))
      ∧ o._transform (some ((o.sequence.indexOf v : ℕ) : ℚ))
        = Except.ok (some v) := by
  constructor
  · simp [OrdinalHyperparameter._inverse_transform, h]
  · have hlt : o.sequence.indexOf v < o.sequence.length :=
      List.indexOf_lt_length.mpr h
    have hden : ((o.sequence.indexOf v : ℕ) : ℚ).den = 1 := Rat.den_natCast _
    have hnum : ((o.sequence.indexOf v : ℕ) : ℚ).num = (o.sequence.indexOf v : ℤ) :=
      Rat.num_natCast _
    simp only [OrdinalHyperparameter._transform, hden, hnum,
      Nat.cast_nonneg, and_true, if_pos, Int.toNat_natCast, true_and]
    rw [List.get?_eq_get hlt]
    simp [List.indexOf_get]

/-- Log-scale unquantized uniform float over `ℝ`: exact round trip on
positive values when the bounds are positive. -/
theorem ufr_roundtrip_log_noq (hp : UniformFloatReal) (hlog : hp.log = true)
    (hq : hp.q = none) (hl : 0 < hp.lower) (hlt : hp.lower < hp.upper)
    (v : ℝ) (hv : 0 < v) :
    hp._transform (hp._inverse_transform (some v)) = some v := by
  have hrawl : hp.lowerRaw = hp.lower := by
    simp [UniformFloatReal.lowerRaw, hq]
  have hrawu : hp.upperRaw = hp.upper := by
    simp [UniformFloatReal.upperRaw, hq]
  have hpl : hp.lowerT = some (Real.log hp.lower) := by
    rw [UniformFloatReal.lowerT, hlog, if_pos rfl, hrawl, npLog, if_pos hl]
  have hpu : hp.upperT = some (Real.log hp.upper) := by
    rw [UniformFloatReal.upperT, hlog, if_pos rfl, hrawu, npLog,
      if_pos (hl.trans hlt)]
  have hne : Real.log hp.upper ≠ Real.log hp.lower :=
    ne_of_gt (Real.log_lt_log hl hlt)
  have hnl : npLog v = some (Real.log v) := by rw [npLog, if_pos hv]
  simp only [UniformFloatReal._inverse_transform, UniformFloatReal._transform,
    hpl, hpu, hlog, if_true, hnl, hq]
  rw [linear_roundtrip _ _ _ hne, Real.exp_log hv]

/-- Log-scale quantized uniform float over `ℝ`: round trip within the
quantization step on positive values when the widened bounds are
positive. -/
theorem ufr_roundtrip_log_q (hp : UniformFloatReal) (qv : ℝ)
    (hlog : hp.log = true) (hq : hp.q = some qv) (hqpos : 0 < qv)
    (hraw : 0 < hp.lowerRaw) (hrawlt : hp.lowerRaw < hp.upperRaw)
    (v : ℝ) (hv : 0 < v) :
    ∃ w, hp._transform (hp._inverse_transform (some v)) = some w
      ∧ |w - v| ≤ qv := by
  have hpl : hp.lowerT = some (Real.log hp.lowerRaw) := by
    rw [UniformFloatReal.lowerT, hlog, if_pos rfl, npLog, if_pos hraw]
  have hpu : hp.upperT = some (Real.log hp.upperRaw) := by
    rw [UniformFloatReal.upperT, hlog, if_pos rfl, npLog,
      if_pos (hraw.trans hrawlt)]
  have hne : Real.log hp.upperRaw ≠ Real.log hp.lowerRaw :=
    ne_of_gt (Real.log_lt_log hraw hrawlt)
  have hnl : npLog v = some (Real.log v) := by rw [npLog, if_pos hv]
  simp only [UniformFloatReal._inverse_transform, UniformFloatReal._transform,
    hpl, hpu, hlog, if_true, hnl, hq]
  rw [linear_roundtrip _ _ _ hne, Real.exp_log hv]
  refine ⟨_, rfl, ?_⟩
  have := quantize_dist v qv hqpos
  linarith

/-- Log-scale unquantized normal float over `ℝ`: exact round trip on
positive values. -/
theorem nfr_roundtrip_log_noq (hp : NormalFloatReal) (hlog : hp.log = true)
    (hq : hp.q = none) (v : ℝ) (hv : 0 < v) :
    hp._transform (hp._inverse_transform (some v)) = some v := by
  have hnl : npLog v = some (Real.log v) := by rw [npLog, if_pos hv]
  simp only [NormalFloatReal._inverse_transform, NormalFloatReal._transform,
    hlog, if_true, hnl, hq]
  rw [Real.exp_log hv]

/-- Log-scale quantized normal float over `ℝ`: round trip within the
quantization step on positive values. -/
theorem nfr_roundtrip_log_q (hp : NormalFloatReal) (qv : ℝ)
    (hlog : hp.log = true) (hq : hp.q = some qv) (hqpos : 0 < qv)
    (v : ℝ) (hv : 0 < v) :
    ∃ w, hp._transform (hp._inverse_transform (some v)) = some w
      ∧ |w - v| ≤ qv := by
  have hnl : npLog v = some (Real.log v) := by rw [npLog, if_pos hv]
  simp only [NormalFloatReal._inverse_transform, NormalFloatReal._transform,
    hlog, if_true, hnl, hq]
  rw [Real.exp_log hv]
  refine ⟨_, rfl, ?_⟩
  have := quantize_dist v qv hqpos
  linarith

/-- Log-scale unquantized uniform integer over `ℝ`: exact round trip on
positive integer values (the `1 ≤ lower` bound keeps the `±0.49999`-widened
lower bound positive). -/
theorem uir_roundtrip_log_noq (hp : UniformIntegerReal)
    (hlog : hp.log = true) (hq : hp.q = none) (hl : 1 ≤ hp.lower)
    (hlt : hp.lower < hp.upper) (v : ℤ) (hv : 1 ≤ v) :
    hp._transform (hp._inverse_transform (some v)) = some v := by
  have hqq : hp.ufhp.q = none := by
    simp [UniformIntegerReal.ufhp, hq]
  have hlogq : hp.ufhp.log = true := by
    simp [UniformIntegerReal.ufhp, hlog]
  have hlo : (0 : ℝ) < hp.ufhp.lower := by
    simp only [UniformIntegerReal.ufhp]
    have : (1 : ℝ) ≤ (hp.lower : ℝ) := by exact_mod_cast hl
    linarith
  have hlu : hp.ufhp.lower < hp.ufhp.upper := by
    simp only [UniformIntegerReal.ufhp]
    have : (hp.lower : ℝ) < (hp.upper : ℝ) := by exact_mod_cast hlt
    linarith
  have hvpos : (0 : ℝ) < (v : ℝ) := by
    have : (1 : ℝ) ≤ (v : ℝ) := by exact_mod_cast hv
    linarith
  have huf := ufr_roundtrip_log_noq hp.ufhp hlogq hqq hlo hlu (v : ℝ) hvpos
  cases e : hp.ufhp._inverse_transform (some (v : ℝ)) with
  | none =>
    rw [e] at huf
    exact absurd huf (by simp [UniformFloatReal._transform])
  | some x =>
    rw [e] at huf
    simp only [UniformIntegerReal._inverse_transform]
    rw [e]
    simp only [UniformIntegerReal._transform]
    rw [huf]
    simp [hq, roundHalfEven_intCast]

/-- Log-scale quantized uniform integer over `ℝ`: round trip within the
quantization step on positive integer values, provided the `q`-widened
internal lower bound stays positive (otherwise its log is NaN and every
value decodes to the absent value; see the counterexample). -/
theorem uir_roundtrip_log_q (hp : UniformIntegerReal) (qi : ℤ)
    (hlog : hp.log = true) (hq : hp.q = some qi) (hq1 : 1 ≤ qi)
    (hraw : 0 < hp.ufhp.lowerRaw) (hlt : hp.lower < hp.upper)
    (v : ℤ) (hv : 1 ≤ v) :
    ∃ w : ℤ, hp._transform (hp._inverse_transform (some v)) = some w
      ∧ |(w : ℝ) - (v : ℝ)| ≤ (qi : ℝ) := by
  have hqq : hp.ufhp.q = some ((qi : ℤ) : ℝ) := by
    simp [UniformIntegerReal.ufhp, hq]
  have hlogq : hp.ufhp.log = true := by
    simp [UniformIntegerReal.ufhp, hlog]
  have hqpos : (0 : ℝ) < ((qi : ℤ) : ℝ) := by
    have : (0 : ℤ) < qi := lt_of_lt_of_le one_pos hq1
    exact_mod_cast this
  have hrawlt : hp.ufhp.lowerRaw < hp.ufhp.upperRaw := by
    have hc : (hp.lower : ℝ) < (hp.upper : ℝ) := by exact_mod_cast hlt
    simp only [UniformFloatReal.lowerRaw, UniformFloatReal.upperRaw, hqq]
    simp only [UniformIntegerReal.ufhp]
    linarith
  have hvpos : (0 : ℝ) < (v : ℝ) := by
    have : (1 : ℝ) ≤ (v : ℝ) := by exact_mod_cast hv
    linarith
  have hpl : hp.ufhp.lowerT = some (Real.log hp.ufhp.lowerRaw) := by
    rw [UniformFloatReal.lowerT, hlogq, if_pos rfl, npLog, if_pos hraw]
  have hpu : hp.ufhp.upperT = some (Real.log hp.ufhp.upperRaw) := by
    rw [UniformFloatReal.upperT, hlogq, if_pos rfl, npLog,
      if_pos (hraw.trans hrawlt)]
  have hne : Real.log hp.ufhp.upperRaw ≠ Real.log hp.ufhp.lowerRaw :=
    ne_of_gt (Real.log_lt_log hraw hrawlt)
  have hnl : npLog (v : ℝ) = some (Real.log (v : ℝ)) := by
    rw [npLog, if_pos hvpos]
  simp only [UniformIntegerReal._inverse_transform,
    UniformIntegerReal._transform, UniformFloatReal._inverse_transform,
    UniformFloatReal._transform, hpl, hpu, hlogq, if_true, hnl, hqq, hq]
  rw [linear_roundtrip _ _ _ hne, Real.exp_log hvpos]
  rw [quantize_fix _ _ (ne_of_gt hqpos)]
  have hcast : ((roundHalfEven ((v : ℝ) / (qi : ℝ)) : ℤ) : ℝ) * (qi : ℝ)
      = ((roundHalfEven ((v : ℝ) / (qi : ℝ)) * qi : ℤ) : ℝ) := by
    push_cast
    ring
  rw [hcast, roundHalfEven_intCast]
  refine ⟨_, rfl, ?_⟩
  rw [← hcast]
  have := quantize_dist (v : ℝ) ((qi : ℤ) : ℝ) hqpos
  linarith

/-- Log-scale unquantized normal integer over `ℝ`: exact round trip on
positive integer values. -/
theorem nir_roundtrip_log_noq (hp : NormalIntegerReal)
    (hlog : hp.log = true) (hq : hp.q = none) (v : ℤ) (hv : 1 ≤ v) :
    hp._transform (hp._inverse_transform (some v)) = some v := by
  have hqq : hp.nfhp.q = none := by
    simp [NormalIntegerReal.nfhp, hq]
  have hlogq : hp.nfhp.log = true := by
    simp [NormalIntegerReal.nfhp, hlog]
  have hvpos : (0 : ℝ) < (v : ℝ) := by
    have : (1 : ℝ) ≤ (v : ℝ) := by exact_mod_cast hv
    linarith
  have hnf := nfr_roundtrip_log_noq hp.nfhp hlogq hqq (v : ℝ) hvpos
  cases e : hp.nfhp._inverse_transform (some (v : ℝ)) with
  | none =>
    rw [e] at hnf
    exact absurd hnf (by simp [NormalFloatReal._transform])
  | some x =>
    rw [e] at hnf
    simp only [NormalIntegerReal._inverse_transform]
    rw [e]
    simp only [NormalIntegerReal._transform]
    rw [hnf]
    simp [roundHalfEven_intCast]

/-- Log-scale quantized normal integer over `ℝ`: round trip within the
quantization step on positive integer values. -/
theorem nir_roundtrip_log_q (hp : NormalIntegerReal) (qi : ℤ)
    (hlog : hp.log = true) (hq : hp.q = some qi) (hq1 : 1 ≤ qi)
    (v : ℤ) (hv : 1 ≤ v) :
    ∃ w : ℤ, hp._transform (hp._inverse_transform (some v)) = some w
      ∧ |(w : ℝ) - (v : ℝ)| ≤ (qi : ℝ) := by
  have hqq : hp.nfhp.q = some ((qi : ℤ) : ℝ) := by
    simp [NormalIntegerReal.nfhp, hq]
  have hlogq : hp.nfhp.log = true := by
    simp [NormalIntegerReal.nfhp, hlog]
  have hqpos : (0 : ℝ) < ((qi : ℤ) : ℝ) := by
    have : (0 : ℤ) < qi := lt_of_lt_of_le one_pos hq1
    exact_mod_cast this
  have hvpos : (0 : ℝ) < (v : ℝ) := by
    have : (1 : ℝ) ≤ (v : ℝ) := by exact_mod_cast hv
    linarith
  have hnl : npLog (v : ℝ) = some (Real.log (v : ℝ)) := by
    rw [npLog, if_pos hvpos]
  simp only [NormalIntegerReal._inverse_transform,
    NormalIntegerReal._transform, NormalFloatReal._inverse_transform,
    NormalFloatReal._transform, hlogq, if_true, hnl, hqq]
  rw [Real.exp_log hvpos]
  have hcast : ((roundHalfEven ((v : ℝ) / (qi : ℝ)) : ℤ) : ℝ) * (qi : ℝ)
      = ((roundHalfEven ((v : ℝ) / (qi : ℝ)) * qi : ℤ) : ℝ) := by
    push_cast
    ring
  rw [hcast, roundHalfEven_intCast]
  refine ⟨_, rfl, ?_⟩
  rw [← hcast]
  have := quantize_dist (v : ℝ) ((qi : ℤ) : ℝ) hqpos
  linarith

end RoundTripLemmas

/-- C1, amended.  Round trip for every hyperparameter variant:
`to_value(to_vector(v))` reproduces a legal value `v` exactly (in exact
arithmetic) for unquantized variants — Constant, uniform/normal float and
integer (including the log-scale arms, modelled over `ℝ`), Categorical and
Ordinal — and lands within one quantization step `q` of `v` for quantized
variants (uniform/normal, float and integer, with and without log scale).
For the log-scale arms this holds on positive values provided the
(possibly `q`-widened) internal lower bound is positive; when the widening
drives that bound nonpositive, `np.log` makes the internal bounds NaN and
every value decodes to the absent value instead (see the
counterexample). -/
theorem round_trip_all_variants :
    (∀ {α : Type} [DecidableEq α] (c : Constant α) (v : α),
      c.is_legal v = true →
        c._transform (c._inverse_transform (some v)) = some v)
    ∧ (∀ hp : UniformFloatHyperparameter, hp.q = none → hp.lower < hp.upper →
        ∀ v : ℚ, hp._transform (hp._inverse_transform (some v)) = some v)
    ∧ (∀ (hp : UniformFloatHyperparameter) (qv : ℚ), hp.q = some qv →
        0 < qv → hp.lowerT < hp.upperT → ∀ v : ℚ,
        ∃ w, hp._transform (hp._inverse_transform (some v)) = some w
          ∧ |w - v| ≤ qv)
    ∧ (∀ hp : NormalFloatHyperparameter, hp.q = none →
        ∀ v : ℚ, hp._transform (hp._inverse_transform (some v)) = some v)
    ∧ (∀ (hp : NormalFloatHyperparameter) (qv : ℚ), hp.q = some qv →
        0 < qv → ∀ v : ℚ,
        ∃ w, hp._transform (hp._inverse_transform (some v)) = some w
          ∧ |w - v| ≤ qv)
    ∧ (∀ hp : UniformIntegerHyperparameter, hp.q = none →
        hp.lower < hp.upper → ∀ v : ℤ,
        hp._transform (hp._inverse_transform (some v)) = some v)
    ∧ (∀ (hp : UniformIntegerHyperparameter) (qi : ℤ), hp.q = some qi →
        1 ≤ qi → hp.lower < hp.upper → ∀ v : ℤ,
        ∃ w : ℤ, hp._transform (hp._inverse_transform (some v)) = some w
          ∧ |(w : ℚ) - (v : ℚ)| ≤ (qi : ℚ))
    ∧ (∀ hp : NormalIntegerHyperparameter, hp.q = none → ∀ v : ℤ,
        hp._transform (hp._inverse_transform (some v)) = some v)
    ∧ (∀ (hp : NormalIntegerHyperparameter) (qi : ℤ), hp.q = some qi →
        1 ≤ qi → ∀ v : ℤ,
        ∃ w : ℤ, hp._transform (hp._inverse_transform (some v)) = some w
          ∧ |(w : ℚ) - (v : ℚ)| ≤ (qi : ℚ))
    ∧ (∀ {α : Type} [DecidableEq α] (c : CategoricalHyperparameter α) (v : α),
        v ∈ c.choices →
        c._inverse_transform (some v)
            = Except.ok (some ((c.choices.indexOf v : ℕ) : ℚ))
          ∧ c._transform (some ((c.choices.indexOf v : ℕ) : ℚ))
            = Except.ok (some v))
    ∧ (∀ {α : Type} [DecidableEq α] (o : OrdinalHyperparameter α) (v : α),
        v ∈ o.sequence →
        o._inverse_transform (some v)
            = Except.ok (some ((o.sequence.indexOf v : ℕ) : ℚ))
          ∧ o._transform (some ((o.sequence.indexOf v : ℕ) : ℚ))
            = Except.ok (some v))
    ∧ (∀ hp : UniformFloatReal, hp.log = true → hp.q = none →
        0 < hp.lower → hp.lower < hp.upper → ∀ v : ℝ, 0 < v →
        hp._transform (hp._inverse_transform (some v)) = some v)
    ∧ (∀ (hp : UniformFloatReal) (qv : ℝ), hp.log = true → hp.q = some qv →
        0 < qv → 0 < hp.lowerRaw → hp.lowerRaw < hp.upperRaw →
        ∀ v : ℝ, 0 < v →
        ∃ w, hp._transform (hp._inverse_transform (some v)) = some w
          ∧ |w - v| ≤ qv)
    ∧ (∀ hp : NormalFloatReal, hp.log = true → hp.q = none →
        ∀ v : ℝ, 0 < v →
        hp._transform (hp._inverse_transform (some v)) = some v)
    ∧ (∀ (hp : NormalFloatReal) (qv : ℝ), hp.log = true → hp.q = some qv →
        0 < qv → ∀ v : ℝ, 0 < v →
        ∃ w, hp._transform (hp._inverse_transform (some v)) = some w
          ∧ |w - v| ≤ qv)
    ∧ (∀ hp : UniformIntegerReal, hp.log = true → hp.q = none →
        1 ≤ hp.lower → hp.lower < hp.upper → ∀ v : ℤ, 1 ≤ v →
        hp._transform (hp._inverse_transform (some v)) = some v)
    ∧ (∀ hp : NormalIntegerReal, hp.log = true → hp.q = none →
        ∀ v : ℤ, 1 ≤ v →
        hp._transform (hp._inverse_transform (some v)) = some v)
    ∧ (∀ (hp : UniformIntegerReal) (qi : ℤ), hp.log = true →
        hp.q = some qi → 1 ≤ qi → 0 < hp.ufhp.lowerRaw →
        hp.lower < hp.upper → ∀ v : ℤ, 1 ≤ v →
        ∃ w : ℤ, hp._transform (hp._inverse_transform (some v)) = some w
          ∧ |(w : ℝ) - (v : ℝ)| ≤ (qi : ℝ))
    ∧ (∀ (hp : NormalIntegerReal) (qi : ℤ), hp.log = true →
        hp.q = some qi → 1 ≤ qi → ∀ v : ℤ, 1 ≤ v →
        ∃ w : ℤ, hp._transform (hp._inverse_transform (some v)) = some w
          ∧ |(w : ℝ) - (v : ℝ)| ≤ (qi : ℝ)) := by
  refine ⟨?_, ?_, ?_, ?_, ?_, ?_, ?_, ?_, ?_, ?_, ?_, ?_, ?_, ?_, ?_, ?_,
    ?_, ?_, ?_⟩
  · intro α _ c v h
    exact const_roundtrip c v h
  · intro hp hq hlt v
    exact uf_roundtrip_noq hp hq hlt v
  · intro hp qv hq hqpos hlt v
    exact uf_roundtrip_q hp qv hq hqpos hlt v
  · intro hp hq v
    exact nf_roundtrip_noq hp hq v
  · intro hp qv hq hqpos v
    exact nf_roundtrip_q hp qv hq hqpos v
  · intro hp hq hlt v
    exact ui_roundtrip_noq hp hq hlt v
  · intro hp qi hq hq1 hlt v
    exact ui_roundtrip_q hp qi hq hq1 hlt v
  · intro hp hq v
    exact ni_roundtrip_noq hp hq v
  · intro hp qi hq hq1 v
    exact ni_roundtrip_q hp qi hq hq1 v
  · intro α _ c v h
    exact cat_roundtrip c v h
  · intro α _ o v h
    exact ord_roundtrip o v h
  · intro hp hlog hq hl hlt v hv
    exact ufr_roundtrip_log_noq hp hlog hq hl hlt v hv
  · intro hp qv hlog hq hqpos hraw hrawlt v hv
    exact ufr_roundtrip_log_q hp qv hlog hq hqpos hraw hrawlt v hv
  · intro hp hlog hq v hv
    exact nfr_roundtrip_log_noq hp hlog hq v hv
  · intro hp qv hlog hq hqpos v hv
    exact nfr_roundtrip_log_q hp qv hlog hq hqpos v hv
  · intro hp hlog hq hl hlt v hv
    exact uir_roundtrip_log_noq hp hlog hq hl hlt v hv
  · intro hp hlog hq v hv
    exact nir_roundtrip_log_noq hp hlog hq v hv
  · intro hp qi hlog hq hq1 hraw hlt v hv
    exact uir_roundtrip_log_q hp qi hlog hq hq1 hraw hlt v hv
  · intro hp qi hlog hq hq1 v hv
    exact nir_roundtrip_log_q hp qi hlog hq hq1 v hv

/-- C1, counterexample.  The claim as stated fails on a constructible
quantized log-scale integer variant:
`UniformIntegerHyperparameter(lower=1, upper=100, q=2, log=True)` passes
every construction check (`lower ≥ 1`, `q ≥ 1`, `lower < upper`) and `50`
is a legal value (`is_legal_uniforminteger`), but the `q`-widened internal
lower bound is `1 - 0.49999 - (2/2 - 0.0001) = -0.49989 < 0`, so `np.log`
of it makes the internal bounds NaN, `to_vector(50)` is NaN, and
`to_value(to_vector(50))` is the absent value (`none`) — not a number
within one quantization step of `50`. -/
theorem round_trip_claim_false_log_quantized :
    is_legal_uniforminteger 50 100 1 = true
    ∧ (⟨1, 100, some 2, true⟩ : UniformIntegerReal).ufhp.lowerRaw < 0
    ∧ (⟨1, 100, some 2, true⟩ : UniformIntegerReal)._transform
        ((⟨1, 100, some 2, true⟩ : UniformIntegerReal)._inverse_transform
          (some 50))
      = none := by
  have hraw : (⟨1, 100, some 2, true⟩ : UniformIntegerReal).ufhp.lowerRaw
      = -(49989 / 100000 : ℝ) := by
    simp only [UniformIntegerReal.ufhp, UniformFloatReal.lowerRaw,
      Option.map_some]
    norm_num
  have hLT : (⟨1, 100, some 2, true⟩ : UniformIntegerReal).ufhp.lowerT
      = none := by
    rw [UniformFloatReal.lowerT,
      show (⟨1, 100, some 2, true⟩ : UniformIntegerReal).ufhp.log = true
        from rfl,
      if_pos rfl, npLog, if_neg]
    rw [hraw]
    norm_num
  have hlog50 : (⟨1, 100, some 2, true⟩ : UniformIntegerReal).ufhp.log
      = true := rfl
  have hnl : npLog (((50 : ℤ) : ℝ)) = some (Real.log ((50 : ℤ) : ℝ)) := by
    rw [npLog, if_pos (by norm_num)]
  have hinv : (⟨1, 100, some 2, true⟩ : UniformIntegerReal)._inverse_transform
      (some 50) = none := by
    simp only [UniformIntegerReal._inverse_transform,
      UniformFloatReal._inverse_transform, hlog50, if_true, hnl, hLT]
  refine ⟨?_, ?_, ?_⟩
  · simp only [is_legal_uniforminteger, Bool.and_eq_true, decide_eq_true_eq,
      ge_iff_le]
    norm_num
  · rw [hraw]
    norm_num
  · rw [hinv]
    rfl

/-- C6.  `NaN` vector entries (`none`) and absent values (`none`) are mutual
sentinels for every variant: each `_transform` maps the `NaN` vector to the
absent value and each `_inverse_transform` maps the absent value to `NaN`
(for Categorical/Ordinal, without raising). -/
theorem nan_none_sentinels :
    (∀ {α : Type} [DecidableEq α] (c : Constant α),
      c._transform none = none ∧ c._inverse_transform none = none)
    ∧ (∀ hp : UniformFloatHyperparameter,
      hp._transform none = none ∧ hp._inverse_transform none = none)
    ∧ (∀ hp : NormalFloatHyperparameter,
      hp._transform none = none ∧ hp._inverse_transform none = none)
    ∧ (∀ hp : UniformIntegerHyperparameter,
      hp._transform none = none ∧ hp._inverse_transform none = none)
    ∧ (∀ hp : NormalIntegerHyperparameter,
      hp._transform none = none ∧ hp._inverse_transform none = none)
    ∧ (∀ {α : Type} [DecidableEq α] (c : CategoricalHyperparameter α),
      c._transform none = Except.ok none
        ∧ c._inverse_transform none = Except.ok none)
    ∧ (∀ {α : Type} [DecidableEq α] (o : OrdinalHyperparameter α),
      o._transform none = Except.ok none
        ∧ o._inverse_transform none = Except.ok none)
    ∧ (∀ hp : UniformFloatReal,
      hp._transform none = none ∧ hp._inverse_transform none = none)
    ∧ (∀ hp : NormalFloatReal,
      hp._transform none = none ∧ hp._inverse_transform none = none)
    ∧ (∀ hp : UniformIntegerReal,
      hp._transform none = none ∧ hp._inverse_transform none = none)
    ∧ (∀ hp : NormalIntegerReal,
      hp._transform none = none ∧ hp._inverse_transform none = none) := by
  refine ⟨?_, ?_, ?_, ?_, ?_, ?_, ?_, ?_, ?_, ?_, ?_⟩
  · intro α _ c
    exact ⟨rfl, by simp [Constant._inverse_transform]⟩
  · intro hp
    exact ⟨rfl, rfl⟩
  · intro hp
    exact ⟨rfl, rfl⟩
  · intro hp
    exact ⟨rfl, rfl⟩
  · intro hp
    exact ⟨rfl, rfl⟩
  · intro α _ c
    exact ⟨rfl, rfl⟩
  · intro α _ o
    exact ⟨rfl, rfl⟩
  · intro hp
    exact ⟨rfl, rfl⟩
  · intro hp
    exact ⟨rfl, rfl⟩
  · intro hp
    exact ⟨rfl, rfl⟩
  · intro hp
    exact ⟨rfl, rfl⟩

namespace UniformIntegerHyperparameter

/-- The widened internal bounds of an unquantized uniform integer variant
differ whenever its integer bounds are ordered. -/
theorem bounds_ne (hp : UniformIntegerHyperparameter) (hq : hp.q = none)
    (hlt : hp.lower < hp.upper) : hp.ufhp.upperT ≠ hp.ufhp.lowerT := by
  have hqq : hp.ufhp.q = none := by
    simp [UniformIntegerHyperparameter.ufhp, hq]
  have hc : (hp.lower : ℚ) < (hp.upper : ℚ) := by exact_mod_cast hlt
  simp only [UniformFloatHyperparameter.lowerT,
    UniformFloatHyperparameter.upperT, hqq]
  simp only [UniformIntegerHyperparameter.ufhp]
  intro h
  linarith

/-- The unquantized uniform integer `_transform` on a present vector entry:
rescale by the widened bounds and round to an integer. -/
theorem transform_some (hp : UniformIntegerHyperparameter) (hq : hp.q = none)
    (x : ℚ) :
    hp._transform (some x)
      = some (roundHalfEven
          (x * (hp.ufhp.upperT - hp.ufhp.lowerT) + hp.ufhp.lowerT)) := by
  have hqq : hp.ufhp.q = none := by
    simp [UniformIntegerHyperparameter.ufhp, hq]
  simp only [UniformIntegerHyperparameter._transform,
    UniformFloatHyperparameter._transform, hqq, hq]

end UniformIntegerHyperparameter

/-- C7.  `UniformIntegerHyperparameter._sample` round-trips the raw draw of
the internal widened float-uniform instance: the sampled vector equals
`_inverse_transform(_transform(raw draw))`, so any two raw draws that decode
to the same integer produce the identical vector value, and re-decoding the
sampled vector gives the same integer as decoding the raw draw
(quantization idempotence, unquantized variant). -/
theorem uniform_integer_sample_roundtrip :
    (∀ (hp : UniformIntegerHyperparameter) (x : ℚ),
      hp.sampleFromDraw x = hp._inverse_transform (hp._transform (some x)))
    ∧ (∀ (hp : UniformIntegerHyperparameter) (x y : ℚ),
      hp._transform (some x) = hp._transform (some y) →
        hp.sampleFromDraw x = hp.sampleFromDraw y)
    ∧ (∀ hp : UniformIntegerHyperparameter, hp.q = none →
      hp.lower < hp.upper → ∀ x : ℚ,
        hp._transform (hp.sampleFromDraw x) = hp._transform (some x)) := by
  refine ⟨fun hp x => rfl, ?_, ?_⟩
  · intro hp x y h
    simp only [UniformIntegerHyperparameter.sampleFromDraw, h]
  · intro hp hq hlt x
    have hne := hp.bounds_ne hq hlt
    rw [UniformIntegerHyperparameter.sampleFromDraw,
      hp.transform_some hq x]
    simp only [UniformIntegerHyperparameter._inverse_transform,
      UniformFloatHyperparameter._inverse_transform]
    rw [hp.transform_some hq]
    rw [linear_roundtrip _ _ _ hne, roundHalfEven_intCast]

/-- The inner rejection loop of `UniformIntegerHyperparameter.get_neighbors`,
faithful to the source: `iteration` is initialized to `0` and never
incremented in the loop body, so it is passed through unchanged; a pass
accepts the current draw when `ok`, otherwise raises if `100000 < iteration`,
otherwise retries with the next draw.  `fuel` only bounds the model's
recursion: `none` means the loop has not terminated within `fuel` passes. -/
def rejectLoopNoInc (ok : ℕ → Bool) : ℕ → ℕ → ℕ → Option (Except String ℕ)
  | 0, _, _ => none
  | fuel + 1, pos, iteration =>
    if ok pos then some (Except.ok pos)
    else if 100000 < iteration then
      some (Except.error "Probably caught in an infinite loop.")
    else rejectLoopNoInc ok fuel (pos + 1) iteration

/-- The inner rejection loop of `NormalIntegerHyperparameter.get_neighbors`:
`iteration` is incremented at the top of each pass; a pass accepts the
current draw when `ok`, otherwise raises if `100000 < iteration`, otherwise
retries. -/
def rejectLoopInc (ok : ℕ → Bool) : ℕ → ℕ → ℕ → Option (Except String ℕ)
  | 0, _, _ => none
  | fuel + 1, pos, iteration =>
    let iter := iteration + 1
    if ok pos then some (Except.ok pos)
    else if 100000 < iter then
      some (Except.error "Probably caught in an infinite loop.")
    else rejectLoopInc ok fuel (pos + 1) iter

theorem rejectLoopNoInc_accepts {ok : ℕ → Bool} :
    ∀ {fuel pos iteration p}, rejectLoopNoInc ok fuel pos iteration
      = some (Except.ok p) → ok p = true := by
  intro fuel
  induction fuel with
  | zero => intro pos iteration p h; simp [rejectLoopNoInc] at h
  | succ n ih =>
    intro pos iteration p h
    rw [rejectLoopNoInc] at h
    by_cases hc : ok pos
    · rw [if_pos hc] at h
      cases h
      exact hc
    · rw [if_neg hc] at h
      by_cases hit : 100000 < iteration
      · rw [if_pos hit] at h
        cases h
      · rw [if_neg hit] at h
        exact ih h

theorem rejectLoopNoInc_stuck {ok : ℕ → Bool} (hall : ∀ i, ok i = false) :
    ∀ fuel pos, rejectLoopNoInc ok fuel pos 0 = none := by
  intro fuel
  induction fuel with
  | zero => intro pos; rfl
  | succ n ih =>
    intro pos
    rw [rejectLoopNoInc, hall pos]
    simp only [Bool.false_eq_true, if_false]
    rw [if_neg (by omega)]
    exact ih (pos + 1)

theorem rejectLoopInc_accepts {ok : ℕ → Bool} :
    ∀ {fuel pos iteration p}, rejectLoopInc ok fuel pos iteration
      = some (Except.ok p) → ok p = true := by
  intro fuel
  induction fuel with
  | zero => intro pos iteration p h; simp [rejectLoopInc] at h
  | succ n ih =>
    intro pos iteration p h
    rw [rejectLoopInc] at h
    by_cases hc : ok pos
    · simp only [if_pos hc] at h
      cases h
      exact hc
    · simp only [if_neg hc] at h
      by_cases hit : 100000 < iteration + 1
      · rw [if_pos hit] at h
        cases h
      · rw [if_neg hit] at h
        exact ih h

theorem rejectLoopInc_errors {ok : ℕ → Bool} (hall : ∀ i, ok i = false) :
    ∀ fuel pos iteration, 100000 < fuel + iteration → 1 ≤ fuel →
      rejectLoopInc ok fuel pos iteration
        = some (Except.error "Probably caught in an infinite loop.") := by
  intro fuel
  induction fuel with
  | zero => intro pos iteration _ h1; omega
  | succ n ih =>
    intro pos iteration hsum _
    rw [rejectLoopInc, hall pos]
    simp only [Bool.false_eq_true, if_false]
    by_cases hit : 100000 < iteration + 1
    · rw [if_pos hit]
    · rw [if_neg hit]
      exact ih (pos + 1) (iteration + 1) (by omega) (by omega)

namespace UniformIntegerHyperparameter

/-- The acceptance test of `UniformIntegerHyperparameter.get_neighbors`: the
candidate draw, clipped into `[0, 1]` (the intent of the source's
`np.min(1, ...)` / `np.max((0, ...))` calls), must decode to a different
integer than the original value. -/
def neighborOk (hp : UniformIntegerHyperparameter) (value : ℚ)
    (cand : ℕ → ℚ) (i : ℕ) : Bool :=
  hp._transform (some (max 0 (min 1 (cand i)))) ≠ hp._transform (some value)

/-- One neighbor search of `UniformIntegerHyperparameter.get_neighbors`:
run the no-increment rejection loop over the draw stream, starting from
`iteration = 0`. -/
def findNeighbor (hp : UniformIntegerHyperparameter) (value : ℚ)
    (cand : ℕ → ℚ) (fuel : ℕ) : Option (Except String ℕ) :=
  rejectLoopNoInc (hp.neighborOk value cand) fuel 0 0

end UniformIntegerHyperparameter

namespace NormalIntegerHyperparameter

/-- The acceptance test of `NormalIntegerHyperparameter.get_neighbors`: the
candidate draw must decode to a different integer than the original
value. -/
def neighborOk (hp : NormalIntegerHyperparameter) (value : ℚ)
    (cand : ℕ → ℚ) (i : ℕ) : Bool :=
  hp._transform (some (cand i)) ≠ hp._transform (some value)

/-- One neighbor search of `NormalIntegerHyperparameter.get_neighbors`:
run the incrementing rejection loop over the draw stream, starting from
`iteration = 0`. -/
def findNeighbor (hp : NormalIntegerHyperparameter) (value : ℚ)
    (cand : ℕ → ℚ) (fuel : ℕ) : Option (Except String ℕ) :=
  rejectLoopInc (hp.neighborOk value cand) fuel 0 0

end NormalIntegerHyperparameter

/-- C3.  Both integer neighbor loops accept a candidate only when its
decoded integer differs from the decoded integer of the original value.
The `NormalInteger` loop is capped: when every draw is rejected it raises
the fatal `'Probably caught in an infinite loop.'` error after the
iteration counter passes 100000.  The `UniformInteger` loop is *not*
capped: its `iteration` counter is never incremented, so when every draw
is rejected it neither accepts nor raises, for any number of passes — the
cap branch is dead code and the loop runs forever. -/
theorem integer_neighbor_rejection_loops :
    (∀ (hp : UniformIntegerHyperparameter) (value : ℚ) (cand : ℕ → ℚ)
        (fuel : ℕ) (p : ℕ),
      hp.findNeighbor value cand fuel = some (Except.ok p) →
        hp._transform (some (max 0 (min 1 (cand p))))
          ≠ hp._transform (some value))
    ∧ (∀ (hp : UniformIntegerHyperparameter) (value : ℚ) (cand : ℕ → ℚ),
      (∀ i, hp._transform (some (max 0 (min 1 (cand i))))
          = hp._transform (some value)) →
        ∀ fuel, hp.findNeighbor value cand fuel = none)
    ∧ (∀ (hp : NormalIntegerHyperparameter) (value : ℚ) (cand : ℕ → ℚ)
        (fuel : ℕ) (p : ℕ),
      hp.findNeighbor value cand fuel = some (Except.ok p) →
        hp._transform (some (cand p)) ≠ hp._transform (some value))
    ∧ (∀ (hp : NormalIntegerHyperparameter) (value : ℚ) (cand : ℕ → ℚ),
      (∀ i, hp._transform (some (cand i)) = hp._transform (some value)) →
        hp.findNeighbor value cand 100001
          = some (Except.error "Probably caught in an infinite loop.")) := by
  refine ⟨?_, ?_, ?_, ?_⟩
  · intro hp value cand fuel p h
    have := rejectLoopNoInc_accepts h
    simpa [UniformIntegerHyperparameter.neighborOk] using this
  · intro hp value cand hall fuel
    refine rejectLoopNoInc_stuck ?_ fuel 0
    intro i
    simp [UniformIntegerHyperparameter.neighborOk, hall i]
  · intro hp value cand fuel p h
    have := rejectLoopInc_accepts h
    simpa [NormalIntegerHyperparameter.neighborOk] using this
  · intro hp value cand hall
    refine rejectLoopInc_errors ?_ 100001 0 0 (by omega) (by omega)
    intro i
    simp [NormalIntegerHyperparameter.neighborOk, hall i]

/-- Boolean list membership by decidable equality (the `in` test of the
neighbor loop). -/
def memB {β : Type} [DecidableEq β] (x : β) : List β → Bool
  | [] => false
  | y :: t => if x = y then true else memB x t

theorem memB_iff {β : Type} [DecidableEq β] (x : β) :
    ∀ l : List β, memB x l = true ↔ x ∈ l := by
  intro l
  induction l with
  | nil => simp [memB]
  | cons y t ih =>
    by_cases h : x = y
    · simp [memB, h]
    · simp [memB, h, ih]

namespace CategoricalHyperparameter

variable {α : Type} [DecidableEq α] [Inhabited α]

/-- One candidate of `CategoricalHyperparameter.get_neighbors`: the decoded
choice (`self._transform(neighbor_idx)`, which for an in-range index is
`choices[idx]`) when `transform` is set, else the index as a float. -/
def candidate (c : CategoricalHyperparameter α) (transform : Bool)
    (idx : ℕ) : α ⊕ ℚ :=
  if transform then Sum.inl (c.choices.getD idx default)
  else Sum.inr (idx : ℚ)

/-- The rejection-sampling branch of `get_neighbors` (`number <
len(choices)`), with the inner redraw loop inlined: each pass draws
`rs pos`, redraws if it equals the original index, skips (`continue`) a
candidate already collected, and otherwise appends it; the loop stops once
`number` neighbors are collected.  `fuel` bounds the model's recursion
(`none` = the loop has not terminated within `fuel` draws). -/
def get_neighbors_loop (c : CategoricalHyperparameter α)
    (index number : ℕ) (transform : Bool) (rs : ℕ → ℕ) :
    ℕ → ℕ → List (α ⊕ ℚ) → Option (List (α ⊕ ℚ))
  | 0, _, _ => none
  | fuel + 1, pos, neighbors =>
    if number ≤ neighbors.length then some neighbors
    else
      let idx := rs pos
      if idx = index then
        get_neighbors_loop c index number transform rs fuel (pos + 1) neighbors
      else
        let cand := c.candidate transform idx
        if memB cand neighbors then
          get_neighbors_loop c index number transform rs fuel (pos + 1)
            neighbors
        else
          get_neighbors_loop c index number transform rs fuel (pos + 1)
            (neighbors ++ [cand])

/-- The deterministic branch of `get_neighbors`: enumerate the choices in
sequence order, skipping the original index. -/
def enumerateOthers (c : CategoricalHyperparameter α) (index : ℕ)
    (transform : Bool) : List (α ⊕ ℚ) :=
  ((List.range c.choices.length).filter (fun i => i ≠ index)).map
    (c.candidate transform)

/-- `CategoricalHyperparameter.get_neighbors`: rejection sampling when the
requested `number` is smaller than the number of choices, else the
deterministic enumeration of all other choices.  (The source's default
`number = np.inf` falls into the deterministic branch, like any `number ≥
len(choices)`.) -/
def get_neighbors (c : CategoricalHyperparameter α) (value number : ℕ)
    (transform : Bool) (rs : ℕ → ℕ) (fuel : ℕ) : Option (List (α ⊕ ℚ)) :=
  if number < c.choices.length then
    c.get_neighbors_loop value number transform rs fuel 0 []
  else some (c.enumerateOthers value transform)

end CategoricalHyperparameter

/-- Reading every position of a list in order reproduces the list. -/
theorem map_getD_range {α : Type} (d : α) (t : List α) :
    (List.range t.length).map (fun j => t.getD j d) = t := by
  apply List.ext_getElem
  · simp
  · intro n h1 h2
    simp only [List.getElem_map, List.getElem_range]
    rw [List.getD_eq_getElem]

/-- Enumerating the positions of a list, skipping position `i`, and reading
each position back gives the list with its `i`-th entry removed. -/
theorem range_filter_getD_eraseIdx {α : Type} [DecidableEq α] (d : α) :
    ∀ (l : List α) (i : ℕ),
      ((List.range l.length).filter (fun j => j ≠ i)).map
        (fun j => l.getD j d) = l.eraseIdx i := by
  intro l
  induction l with
  | nil => intro i; simp
  | cons a t ih =>
    intro i
    rw [List.length_cons, List.range_succ_eq_map, List.filter_cons]
    cases i with
    | zero =>
      rw [if_neg (by simp)]
      rw [List.filter_map, List.map_map]
      have h1 : ((fun j => decide (j ≠ 0)) ∘ Nat.succ) = fun _ => true := by
        funext j
        simp
      have h2 : ((fun j => (a :: t).getD j d) ∘ Nat.succ)
          = fun j => t.getD j d := by
        funext j
        simp
      rw [h1, h2, List.filter_true, List.eraseIdx_zero, map_getD_range]
      simp
    | succ i' =>
      rw [if_pos (by simp)]
      rw [List.filter_map, List.map_cons, List.map_map]
      have h1 : ((fun j => decide (j ≠ i' + 1)) ∘ Nat.succ)
          = fun j => decide (j ≠ i') := by
        funext j
        simp
      have h2 : ((fun j => (a :: t).getD j d) ∘ Nat.succ)
          = fun j => t.getD j d := by
        funext j
        simp
      rw [h1, h2, List.eraseIdx_cons_succ]
      have h3 : (a :: t).getD 0 d = a := rfl
      rw [h3, ih i']

namespace CategoricalHyperparameter

variable {α : Type} [DecidableEq α] [Inhabited α]

/-- Invariant of the rejection-sampling loop: a successful run keeps the
collected list duplicate-free, adds only candidates drawn at an index
different from the original one, and stops with exactly `number`
neighbors. -/
theorem get_neighbors_loop_spec (c : CategoricalHyperparameter α)
    (index number : ℕ) (transform : Bool) (rs : ℕ → ℕ) :
    ∀ (fuel pos : ℕ) (acc l : List (α ⊕ ℚ)),
      acc.Nodup →
      (∀ x ∈ acc, ∃ i, i ≠ index ∧ x = c.candidate transform i) →
      c.get_neighbors_loop index number transform rs fuel pos acc = some l →
      l.Nodup ∧ (∀ x ∈ l, ∃ i, i ≠ index ∧ x = c.candidate transform i)
        ∧ (acc.length ≤ number → l.length = number) := by
  intro fuel
  induction fuel with
  | zero =>
    intro pos acc l _ _ h
    exact Option.noConfusion h
  | succ n ih =>
    intro pos acc l hnd hsrc h
    rw [get_neighbors_loop] at h
    by_cases hlen : number ≤ acc.length
    · rw [if_pos hlen] at h
      cases h
      exact ⟨hnd, hsrc, fun hle => le_antisymm hle hlen⟩
    · rw [if_neg hlen] at h
      by_cases hidx : rs pos = index
      · rw [if_pos hidx] at h
        exact ih (pos + 1) acc l hnd hsrc h
      · rw [if_neg hidx] at h
        by_cases hdup : memB (c.candidate transform (rs pos)) acc = true
        · rw [if_pos hdup] at h
          exact ih (pos + 1) acc l hnd hsrc h
        · rw [if_neg hdup] at h
          have hmem : c.candidate transform (rs pos) ∉ acc := by
            rw [← memB_iff]
            exact hdup
          have hnd' : (acc ++ [c.candidate transform (rs pos)]).Nodup := by
            simp [List.nodup_append, hnd, hmem]
          have hsrc' : ∀ x ∈ acc ++ [c.candidate transform (rs pos)],
              ∃ i, i ≠ index ∧ x = c.candidate transform i := by
            intro x hx
            rcases List.mem_append.mp hx with hx | hx
            · exact hsrc x hx
            · rcases List.mem_singleton.mp hx with rfl
              exact ⟨rs pos, hidx, rfl⟩
          have hres := ih (pos + 1) _ l hnd' hsrc' h
          refine ⟨hres.1, hres.2.1, fun hle => hres.2.2 ?_⟩
          have : acc.length < number := lt_of_not_le hlen
          simp only [List.length_append, List.length_singleton]
          omega

end CategoricalHyperparameter

/-- C4, counterexample.  The claim says the deterministic in-sequence-order
enumeration already happens when the requested count equals `k - 1` (the
number of *other* choices); but the code's branch condition is
`number < len(choices)`, so at `count = k - 1 = 2` for three choices it
rejection-samples from the random stream instead: with draws `2, 1, ...` it
returns `["c", "b"]`, not the sequence-order enumeration `["b", "c"]`. -/
theorem cat_neighbors_boundary_claim_false :
    (CategoricalHyperparameter.mk ["a", "b", "c"]).get_neighbors 0 2 true
        (fun n => if n = 0 then 2 else 1) 8
      = some [Sum.inl "c", Sum.inl "b"]
    ∧ (CategoricalHyperparameter.mk ["a", "b", "c"]).enumerateOthers 0 true
      = [Sum.inl "b", Sum.inl "c"]
    ∧ ([Sum.inl "c", Sum.inl "b"] : List (String ⊕ ℚ))
      ≠ [Sum.inl "b", Sum.inl "c"] := by
  refine ⟨rfl, rfl, by decide⟩

/-- C4, amended.  The deterministic exhaustive branch of
`CategoricalHyperparameter.get_neighbors` requires `count ≥ k` (the number
of choices), not `count ≥ k - 1`: for `count ≥ k` it enumerates all other
choices in sequence order (with `transform`, exactly the choice list with
the original's entry removed; duplicate-free when the choices are), while
for `count < k` it rejection-samples `count` distinct candidates, none
drawn at the original index.  The claim's concrete example stands: three
choices, value `"a"`, count `5` gives exactly `["b", "c"]` for every random
stream. -/
theorem categorical_get_neighbors_spec :
    (∀ {α : Type} [DecidableEq α] [Inhabited α]
        (c : CategoricalHyperparameter α) (value number : ℕ)
        (transform : Bool) (rs : ℕ → ℕ) (fuel : ℕ),
      c.choices.length ≤ number →
        c.get_neighbors value number transform rs fuel
          = some (c.enumerateOthers value transform))
    ∧ (∀ {α : Type} [DecidableEq α] [Inhabited α]
        (c : CategoricalHyperparameter α) (value : ℕ),
      c.enumerateOthers value true
        = (c.choices.eraseIdx value).map Sum.inl)
    ∧ (∀ {α : Type} [DecidableEq α] [Inhabited α]
        (c : CategoricalHyperparameter α) (value : ℕ),
      c.choices.Nodup → (c.enumerateOthers value true).Nodup)
    ∧ (∀ {α : Type} [DecidableEq α] [Inhabited α]
        (c : CategoricalHyperparameter α) (value : ℕ) (transform : Bool),
      ∀ x ∈ c.enumerateOthers value transform,
        ∃ i, i ≠ value ∧ x = c.candidate transform i)
    ∧ (∀ {α : Type} [DecidableEq α] [Inhabited α]
        (c : CategoricalHyperparameter α) (value number : ℕ)
        (transform : Bool) (rs : ℕ → ℕ) (fuel : ℕ)
        (l : List (α ⊕ ℚ)),
      number < c.choices.length →
        c.get_neighbors value number transform rs fuel = some l →
        l.length = number ∧ l.Nodup
          ∧ ∀ x ∈ l, ∃ i, i ≠ value ∧ x = c.candidate transform i)
    ∧ (∀ (rs : ℕ → ℕ) (fuel : ℕ),
      (CategoricalHyperparameter.mk ["a", "b", "c"]).get_neighbors 0 5 true
          rs fuel
        = some [Sum.inl "b", Sum.inl "c"]) := by
  refine ⟨?_, ?_, ?_, ?_, ?_, ?_⟩
  · intro α _ _ c value number transform rs fuel hk
    rw [CategoricalHyperparameter.get_neighbors, if_neg (not_lt.mpr hk)]
  · intro α _ _ c value
    rw [CategoricalHyperparameter.enumerateOthers]
    have hc : c.candidate true = fun i => Sum.inl (c.choices.getD i default) := by
      funext i
      rw [CategoricalHyperparameter.candidate, if_pos rfl]
    rw [hc, show (fun i => Sum.inl (c.choices.getD i default))
        = Sum.inl ∘ (fun i => c.choices.getD i default) from rfl,
      ← List.map_map, range_filter_getD_eraseIdx]
  · intro α _ _ c value hnd
    have h2 : c.enumerateOthers value true
        = (c.choices.eraseIdx value).map Sum.inl := by
      rw [CategoricalHyperparameter.enumerateOthers]
      have hc : c.candidate true = fun i => Sum.inl (c.choices.getD i default) := by
        funext i
        rw [CategoricalHyperparameter.candidate, if_pos rfl]
      rw [hc, show (fun i => Sum.inl (c.choices.getD i default))
          = Sum.inl ∘ (fun i => c.choices.getD i default) from rfl,
        ← List.map_map, range_filter_getD_eraseIdx]
    rw [h2]
    exact ((c.choices.eraseIdx_sublist value).nodup hnd).map
      Sum.inl_injective
  · intro α _ _ c value transform x hx
    rcases List.mem_map.mp hx with ⟨i, hi, rfl⟩
    rcases List.mem_filter.mp hi with ⟨_, hne⟩
    exact ⟨i, by simpa using hne, rfl⟩
  · intro α _ _ c value number transform rs fuel l hk h
    rw [CategoricalHyperparameter.get_neighbors, if_pos hk] at h
    have := c.get_neighbors_loop_spec value number transform rs fuel 0 [] l
      List.nodup_nil (by intro x hx; exact absurd hx (List.not_mem_nil x)) h
    exact ⟨this.2.2 (by simp), this.1, this.2.1⟩
  · intro rs fuel
    rfl

/-- In a duplicate-free list, the first index of a member seen from the
reversed list is the mirrored index. -/
theorem reverse_indexOf_nodup {α : Type} [DecidableEq α] {l : List α}
    (h : l.Nodup) {v : α} (hv : v ∈ l) :
    l.reverse.indexOf v = l.length - 1 - l.indexOf v := by
  have hi : l.indexOf v < l.length := List.indexOf_lt_length.mpr hv
  have hrevnd : l.reverse.Nodup := List.nodup_reverse.mpr h
  have hvrev : v ∈ l.reverse := List.mem_reverse.mpr hv
  have hj : l.reverse.indexOf v < l.reverse.length :=
    List.indexOf_lt_length.mpr hvrev
  have hlt : l.length - 1 - l.indexOf v < l.reverse.length := by
    simp only [List.length_reverse]
    omega
  have h1 : l.reverse.get ⟨l.reverse.indexOf v, hj⟩ = v := List.indexOf_get hj
  have h2 : l.reverse.get ⟨l.length - 1 - l.indexOf v, hlt⟩ = v := by
    rw [List.get_reverse l (l.indexOf v) hlt hi]
    exact List.indexOf_get hi
  have hfin := hrevnd.get_inj_iff.mp (h1.trans h2.symm)
  exact congrArg Fin.val hfin

namespace OrdinalHyperparameter

/-- In a duplicate-free sequence, `get_order` is the 1-based position:
first index plus one. -/
theorem get_order_nodup {α : Type} [DecidableEq α]
    (o : OrdinalHyperparameter α) (h : o.sequence.Nodup) {v : α}
    (hv : v ∈ o.sequence) :
    o.get_order v = (o.sequence.indexOf v : ℤ) + 1 := by
  rw [OrdinalHyperparameter.get_order, if_pos hv, reverse_indexOf_nodup h hv]
  have hi : o.sequence.indexOf v < o.sequence.length :=
    List.indexOf_lt_length.mpr hv
  omega

end OrdinalHyperparameter

/-- C5, counterexample.  The claim says `get_neighbors(v, transform=false)`
returns the 0-based sequence indices `i - 1` and/or `i + 1` of the
neighbors; for the middle element of a three-element sequence (0-based
index `i = 1`) the code returns `[1, 3]` — the 1-based order positions —
not `[0, 2]`. -/
theorem ord_neighbors_encoding_claim_false :
    (OrdinalHyperparameter.mk ["x", "y", "z"]).get_neighbors "y" 2 = [1, 3]
      ∧ ([1, 3] : List ℤ) ≠ [0, 2] := by
  refine ⟨by decide, by decide⟩

/-- C5, amended.  With `transform=false` and a requested `number` smaller
than the sequence length, `get_neighbors` of a value at 0-based index `i`
in a duplicate-free sequence returns exactly the 1-based order positions of
its immediate predecessor and successor — `i` and/or `i + 2` (that is,
`index - 1` and `index + 1` for the 1-based `index = i + 1`), never the
0-based encodings `i - 1`/`i + 1` — with boundary elements getting exactly
one entry and nothing drawn at random. -/
theorem ordinal_get_neighbors_spec :
    ∀ {α : Type} [DecidableEq α] (o : OrdinalHyperparameter α) (v : α),
      o.sequence.Nodup → v ∈ o.sequence → ∀ number : ℕ,
      number < o.sequence.length →
      o.get_neighbors v number
        = (if 1 ≤ (o.sequence.indexOf v : ℤ)
            then [(o.sequence.indexOf v : ℤ)] else [])
          ++ (if (o.sequence.indexOf v : ℤ) + 2 ≤ (o.sequence.length : ℤ)
            then [(o.sequence.indexOf v : ℤ) + 2] else []) := by
  intro α _ o v hnd hv number hnum
  rw [OrdinalHyperparameter.get_neighbors,
    if_pos (by exact_mod_cast hnum), o.get_order_nodup hnd hv]
  set i := (o.sequence.indexOf v : ℤ) with hidef
  simp only [show i + 1 - 1 = i from by ring, lt_add_iff_pos_right,
    zero_lt_one, true_and, show i + 1 + 1 = i + 2 from by ring,
    show (i + 1 < i + 2) ↔ True from iff_true_intro (by omega), true_and]

/-- C5, witness: the amended statement at the middle element `"y"` of the
concrete three-element sequence `["x", "y", "z"]` with `number = 2`, where
it yields the 1-based order positions `[1, 3]`. -/
theorem ordinal_get_neighbors_spec_witness :
    (OrdinalHyperparameter.mk ["x", "y", "z"]).get_neighbors "y" 2
      = [1, 3] := by
  have h := ordinal_get_neighbors_spec (OrdinalHyperparameter.mk ["x", "y", "z"])
    "y" (by decide) (by decide) 2 (by decide)
  rw [h]
  decide

/-- C10.  `OrdinalHyperparameter.get_neighbors` returns the empty list
whenever the requested `number` is at least the sequence length (the whole
body is guarded by `number < len(sequence)`); in particular a two-element
sequence yields no neighbors at the default `number = 2`, although
`get_num_neighbors` reports `1` for its (boundary) elements. -/
theorem ordinal_get_neighbors_empty :
    (∀ {α : Type} [DecidableEq α] (o : OrdinalHyperparameter α) (v : α)
        (number : ℕ),
      o.sequence.length ≤ number → o.get_neighbors v number = [])
    ∧ (OrdinalHyperparameter.mk ["x", "y"]).get_neighbors "x" 2 = []
    ∧ (OrdinalHyperparameter.mk ["x", "y"]).get_neighbors "y" 2 = []
    ∧ (OrdinalHyperparameter.mk ["x", "y"]).get_num_neighbors "x" = 1
    ∧ (OrdinalHyperparameter.mk ["x", "y"]).get_num_neighbors "y" = 1 := by
  refine ⟨?_, by decide, by decide, by decide, by decide⟩
  intro α _ o v number h
  rw [OrdinalHyperparameter.get_neighbors, if_neg (by exact_mod_cast not_lt.mpr h)]

/-- Modelled from the spec: the owning configuration space (the
`ConfigurationSpace` collaborator is not among the repository's files
here).  It supplies an ordered list of hyperparameter names (slot order),
a per-hyperparameter decoder `to_value` (vector entry to decoded value,
with the fixed-precision float rounding of `__getitem__` absorbed into
it), and its own equality notion, modelled as an identity `sid`. -/
structure ConfigurationSpaceModel where
  sid : ℕ
  keys : List String
  to_value : String → ℚ → ℚ

/-- `Configuration`: an owning space and one `Option ℚ` slot per
hyperparameter (`none` = `NaN` = not set/inactive). -/
structure Configuration where
  space : ConfigurationSpaceModel
  vector : List (Option ℚ)

namespace Configuration

/-- `dict(self)`: iterate the space's keys in slot order, skip `NaN`
slots, and decode each remaining slot with the hyperparameter's
`to_value` (the cache of `__getitem__` is write-through, so the mapping is
a pure function of space and vector). -/
def dictOf (c : Configuration) : List (String × ℚ) :=
  (c.space.keys.zip c.vector).filterMap
    (fun kv => kv.2.map (fun x => (kv.1, c.space.to_value kv.1 x)))

/-- `Configuration.__eq__`: decoded value mappings equal and same owning
space — the vectors themselves are never compared. -/
def configEq (c1 c2 : Configuration) : Bool :=
  decide (c1.dictOf = c2.dictOf) && (c1.space.sid == c2.space.sid)

/-- `Configuration.__repr__`: the decoded values listed by sorted key. -/
def configRepr (c : Configuration) : String :=
  let d := c.dictOf.mergeSort (fun a b => a.1 ≤ b.1)
  String.intercalate "\n"
    (["Configuration(values=\x7b"]
      ++ d.map (fun kv => "  " ++ kv.1 ++ ": " ++ toString kv.2 ++ ",")
      ++ ["\x7d)"])

/-- `Configuration.__hash__` is `hash(repr(self))`: a pure function `h` of
the repr string (Python's string hash is opaque, so it is a parameter). -/
def configHash (h : String → ℤ) (c : Configuration) : ℤ :=
  h c.configRepr

end Configuration

/-- A one-key space whose decoder collapses every vector entry to `0`
(e.g. a wide quantization step): used to exhibit configurations with
different vectors but equal decoded mappings. -/
def exampleSpace : ConfigurationSpaceModel :=
  { sid := 0, keys := ["x"], to_value := fun _ _ => 0 }

/-- A configuration of `exampleSpace` with vector `[0.25]` (as `1/4`). -/
def exampleConfigA : Configuration :=
  { space := exampleSpace, vector := [some (mkRat 1 4)] }

/-- A configuration of `exampleSpace` with vector `[0.5]` (as `1/2`). -/
def exampleConfigB : Configuration :=
  { space := exampleSpace, vector := [some (mkRat 1 2)] }

/-- C8.  Two configurations are equal exactly when their decoded value
mappings agree and they belong to the same owning space; equal
configurations hash identically (the hash is a function of the repr, which
is determined by the decoded mapping); and the vectors are not compared:
two configurations with different vectors can be equal. -/
theorem configuration_eq_spec :
    (∀ c1 c2 : Configuration,
      c1.configEq c2 = true
        ↔ c1.dictOf = c2.dictOf ∧ c1.space.sid = c2.space.sid)
    ∧ (∀ (h : String → ℤ) (c1 c2 : Configuration),
      c1.configEq c2 = true →
        Configuration.configHash h c1 = Configuration.configHash h c2)
    ∧ exampleConfigA.configEq exampleConfigB = true
    ∧ exampleConfigA.vector ≠ exampleConfigB.vector := by
  have hiff : ∀ c1 c2 : Configuration,
      c1.configEq c2 = true
        ↔ c1.dictOf = c2.dictOf ∧ c1.space.sid = c2.space.sid := by
    intro c1 c2
    simp [Configuration.configEq]
  refine ⟨hiff, ?_, ?_, ?_⟩
  · intro h c1 c2 he
    have hd := ((hiff c1 c2).mp he).1
    unfold Configuration.configHash Configuration.configRepr
    rw [hd]
  · decide
  · decide

/-- The error taxonomy of a single-key configuration write. -/
inductive SetItemError where
  | illegalValue
  | changeHpValueFailed
  | invalidConfiguration
deriving DecidableEq

/-- The observable state of a `Configuration`: its stored vector and the
lazily cached value mapping (`none` = cache invalidated). -/
structure ConfigurationState where
  vector : List (Option ℚ)
  cache : Option (List (String × ℚ))
deriving DecidableEq

/-- `Configuration.__setitem__` as a state transition.  Modelled from the
spec: the collaborators `c_util.change_hp_value` and
`c_util.check_configuration` are not among the repository's files here, so
they enter as the parameters `changeResult` (the recomputed full vector,
or a raise) and `checkOk` (full-vector validation); the target
hyperparameter's `legal_value` test is the parameter `legal`.  The
statement order mirrors the source: the legality check raises first, then
the collaborator recomputes the vector, then the result is validated, and
only after all three succeed does the method assign the new vector and
invalidate the value cache.  The result pairs the state after the call
with the raised error, if any; a raise leaves the state untouched because
every raise happens before the two assignments. -/
def setItemExec (legal : Bool)
    (changeResult : Except SetItemError (List (Option ℚ)))
    (checkOk : List (Option ℚ) → Bool)
    (s : ConfigurationState) : ConfigurationState × Option SetItemError :=
  if legal = false then (s, some SetItemError.illegalValue)
  else
    match changeResult with
    | Except.error e => (s, some e)
    | Except.ok arr =>
      if checkOk arr = false then (s, some SetItemError.invalidConfiguration)
      else ({ vector := arr, cache := none }, none)

/-- C9.  A failed single-key write leaves the configuration observably
unchanged — whatever the failure (illegal value, collaborator raise,
failed validation), the stored vector and the cached value mapping are
exactly the pre-call ones — while a successful write installs the
recomputed vector and invalidates the whole cache. -/
theorem setitem_no_partial_update :
    (∀ (legal : Bool) (changeResult : Except SetItemError (List (Option ℚ)))
        (checkOk : List (Option ℚ) → Bool) (s : ConfigurationState)
        (e : SetItemError),
      (setItemExec legal changeResult checkOk s).2 = some e →
        (setItemExec legal changeResult checkOk s).1 = s)
    ∧ (∀ (legal : Bool) (changeResult : Except SetItemError (List (Option ℚ)))
        (checkOk : List (Option ℚ) → Bool) (s : ConfigurationState),
      (setItemExec legal changeResult checkOk s).2 = none →
        ∃ arr, changeResult = Except.ok arr ∧ legal = true
          ∧ checkOk arr = true
          ∧ (setItemExec legal changeResult checkOk s).1
            = { vector := arr, cache := none })
    ∧ (∀ (changeResult : Except SetItemError (List (Option ℚ)))
        (checkOk : List (Option ℚ) → Bool) (s : ConfigurationState),
      setItemExec false changeResult checkOk s
        = (s, some SetItemError.illegalValue)) := by
  refine ⟨?_, ?_, ?_⟩
  · intro legal changeResult checkOk s e h
    unfold setItemExec at h ⊢
    by_cases hl : legal = false
    · rw [if_pos hl] at h ⊢
    · rw [if_neg hl] at h ⊢
      cases changeResult with
      | error e' => rfl
      | ok arr =>
        dsimp only at h ⊢
        by_cases hc : checkOk arr = false
        · rw [if_pos hc] at h ⊢
        · rw [if_neg hc] at h
          exact Option.noConfusion h
  · intro legal changeResult checkOk s h
    unfold setItemExec at h ⊢
    by_cases hl : legal = false
    · rw [if_pos hl] at h
      exact Option.noConfusion h
    · rw [if_neg hl] at h ⊢
      cases changeResult with
      | error e' => exact Option.noConfusion h
      | ok arr =>
        dsimp only at h ⊢
        by_cases hc : checkOk arr = false
        · rw [if_pos hc] at h
          exact Option.noConfusion h
        · rw [if_neg hc]
          exact ⟨arr, rfl, by simpa using hl, by simpa using hc, rfl⟩
  · intro changeResult checkOk s
    unfold setItemExec
    rw [if_pos rfl]

end ConfigSpace
